import Mathlib

set_option maxRecDepth 100000

/-!
Verification of the RC6 block cipher implementation (src/includes/rc6.hpp,
src/src/rc6.cpp).  The C++ code is shallowly embedded: `uint32_t` values are
natural numbers with arithmetic reduced modulo 2^32 = 4294967296, the
`std::vector<uint32_t>` round-key and key-word tables are `List Nat`, and the
16-byte block is a `List Nat` of byte values interpreted through the
little-endian word view the source obtains by casting the block pointer to
`uint32_t *`.
-/

namespace RC6

/-- Magic constant P32 = 0xB7E15163 (rc6.hpp line 26). -/
def P32 : Nat := 0xB7E15163

/-- Magic constant Q32 = 0x9E3779B9 (rc6.hpp line 27). -/
def Q32 : Nat := 0x9E3779B9

/-- Log2 of the word size (rc6.hpp line 28). -/
def LG_W : Nat := 5

/-- Wraparound 32-bit addition, the semantics of `x + y` on `uint32_t`. -/
def wadd (x y : Nat) : Nat := (x + y) % 4294967296

/-- Wraparound 32-bit multiplication, the semantics of `x * y` on `uint32_t`. -/
def wmul (x y : Nat) : Nat := (x * y) % 4294967296

/-- Wraparound 32-bit subtraction `x - y` on `uint32_t` values
(for `x, y < 2^32` this is the usual two's-complement wraparound). -/
def wsub (x y : Nat) : Nat := (x + (4294967296 - y % 4294967296)) % 4294967296

/-- Embedding of `RC6::rotl32` (rc6.cpp lines 46-49): `n &= 0x1f;
return (a << n) | (a >> (32 - n));` with `uint32_t` wraparound on the left
shift.  The caller's argument `n` arrives through a `uint8_t` parameter and is
masked with `0x1f`, i.e. reduced mod 32. -/
def rotl32 (a n : Nat) : Nat :=
  ((a <<< (n % 32)) % 4294967296) ||| (a >>> (32 - n % 32))

/-- Embedding of `RC6::rotr32` (rc6.cpp lines 60-63): `n &= 0x1f;
return (a >> n) | (a << (32 - n));`. -/
def rotr32 (a n : Nat) : Nat :=
  (a >>> (n % 32)) ||| ((a <<< (32 - n % 32)) % 4294967296)

/-- The four 32-bit working registers `a`, `b`, `c`, `d` of the block
transform (rc6.cpp lines 156-159 / 209-212). -/
structure Block where
  a : Nat
  b : Nat
  c : Nat
  d : Nat
  deriving DecidableEq, Repr

/-- All four registers are genuine 32-bit values. -/
def Block.Wf (x : Block) : Prop :=
  x.a < 4294967296 ∧ x.b < 4294967296 ∧ x.c < 4294967296 ∧ x.d < 4294967296

instance (x : Block) : Decidable x.Wf := by unfold Block.Wf; infer_instance

/-- One iteration of the encryption round loop (rc6.cpp lines 164-176),
including the final register swap `(a,b,c,d) <- (b,c,d,a)`. -/
def encRound (S : List Nat) (i : Nat) (x : Block) : Block :=
  let t := rotl32 (wmul x.b (wadd (wmul 2 x.b) 1)) LG_W
  let u := rotl32 (wmul x.d (wadd (wmul 2 x.d) 1)) LG_W
  let a := wadd (rotl32 (x.a ^^^ t) u) (S.getD (2 * i) 0)
  let c := wadd (rotl32 (x.c ^^^ u) t) (S.getD (2 * i + 1) 0)
  ⟨x.b, c, x.d, a⟩

/-- The encryption round loop `for (i = 1; i <= rounds; ++i)` expressed as a
recursion on the number of rounds: `encRounds S n` applies the rounds
`1, 2, ..., n` in increasing order (round `n` outermost). -/
def encRounds (S : List Nat) : Nat → Block → Block
  | 0, x => x
  | n + 1, x => encRound S (n + 1) (encRounds S n x)

/-- Word-level embedding of `RC6::encrypt` (rc6.cpp lines 146-186) after the
block has been loaded into the four registers: initial whitening
`b += S[0]; d += S[1]`, the round loop, final whitening
`a += S[2r+2]; c += S[2r+3]`. -/
def encryptWords (S : List Nat) (r : Nat) (x : Block) : Block :=
  let y := encRounds S r ⟨x.a, wadd x.b (S.getD 0 0), x.c, wadd x.d (S.getD 1 0)⟩
  ⟨wadd y.a (S.getD (2 * r + 2) 0), y.b, wadd y.c (S.getD (2 * r + 3) 0), y.d⟩

/-- One iteration of the decryption round loop (rc6.cpp lines 217-229):
the register un-swap `(a,b,c,d) <- (d,a,b,c)` first, then the inverse round
transform at round index `i`. -/
def decRound (S : List Nat) (i : Nat) (x : Block) : Block :=
  let a := x.d
  let b := x.a
  let c := x.b
  let d := x.c
  let u := rotl32 (wmul d (wadd (wmul 2 d) 1)) LG_W
  let t := rotl32 (wmul b (wadd (wmul 2 b) 1)) LG_W
  let c2 := rotr32 (wsub c (S.getD (2 * i + 1) 0)) t ^^^ u
  let a2 := rotr32 (wsub a (S.getD (2 * i) 0)) u ^^^ t
  ⟨a2, b, c2, d⟩

/-- The decryption round loop `for (i = rounds; i > 0; --i)` as a recursion:
`decRounds S n` applies the inverse rounds `n, n-1, ..., 1` in decreasing
order (round `n` first). -/
def decRounds (S : List Nat) : Nat → Block → Block
  | 0, x => x
  | n + 1, x => decRounds S n (decRound S (n + 1) x)

/-- Word-level embedding of `RC6::decrypt` (rc6.cpp lines 199-239):
`c -= S[2r+3]; a -= S[2r+2]`, the inverse round loop, then
`d -= S[1]; b -= S[0]`. -/
def decryptWords (S : List Nat) (r : Nat) (x : Block) : Block :=
  let y := decRounds S r ⟨wsub x.a (S.getD (2 * r + 2) 0), x.b, wsub x.c (S.getD (2 * r + 3) 0), x.d⟩
  ⟨y.a, wsub y.b (S.getD 0 0), y.c, wsub y.d (S.getD 1 0)⟩

/-- Little-endian load of 32-bit word number `i` of a byte buffer: the source
casts the block pointer to `uint32_t *` on a little-endian machine
(rc6.cpp line 155, rc6.hpp line 23). -/
def loadWord (bs : List Nat) (i : Nat) : Nat :=
  bs.getD (4 * i) 0 + 256 * bs.getD (4 * i + 1) 0 +
    65536 * bs.getD (4 * i + 2) 0 + 16777216 * bs.getD (4 * i + 3) 0

/-- Little-endian store of a 32-bit word back to four bytes
(rc6.cpp lines 182-185 through the `uint32_t *` view). -/
def storeWord (w : Nat) : List Nat :=
  [w % 256, w / 256 % 256, w / 65536 % 256, w / 16777216 % 256]

/-- Byte-level embedding of the body of `RC6::encrypt`: load the four
little-endian words, transform, store them back. -/
def encryptBytes (S : List Nat) (r : Nat) (bs : List Nat) : List Nat :=
  let y := encryptWords S r ⟨loadWord bs 0, loadWord bs 1, loadWord bs 2, loadWord bs 3⟩
  storeWord y.a ++ storeWord y.b ++ storeWord y.c ++ storeWord y.d

/-- Byte-level embedding of the body of `RC6::decrypt`. -/
def decryptBytes (S : List Nat) (r : Nat) (bs : List Nat) : List Nat :=
  let y := decryptWords S r ⟨loadWord bs 0, loadWord bs 1, loadWord bs 2, loadWord bs 3⟩
  storeWord y.a ++ storeWord y.b ++ storeWord y.c ++ storeWord y.d

/-- One step of the key-byte loading loop (rc6.cpp lines 99-101):
`key_words[i / 4] |= key_bytes[i] << (8 * (i % 4))`. -/
def loadByte (key kw : List Nat) (i : Nat) : List Nat :=
  kw.set (i / 4) (kw.getD (i / 4) 0 ||| (key.getD i 0 <<< (8 * (i % 4))))

/-- The key-byte loading loop `for (i = 0; i < keylength_bits / 8; ++i)`
(rc6.cpp lines 99-101), as a recursion on the byte count: bytes
`0, 1, ..., n-1` are processed in increasing order. -/
def loadKeyBytes (key : List Nat) : Nat → List Nat → List Nat
  | 0, kw => kw
  | n + 1, kw => loadByte key (loadKeyBytes key n kw) n

/-- The key-word array `L` built by `RC6::init` (rc6.cpp lines 91-110):
`c = ceil(keylength_bits / 32)` zero-initialized words, the byte-loading
loop, then (when the bit length is in neither multiple of 32 nor of 8) the
byte-granular mask `key_words[c-1] &= ~(0xFF << (8 * (bits / 8 % 4)))`.
The complement of the `int` mask restricted to 32 bits is
`0xFFFFFFFF ^^^ (0xFF <<< shift)`. -/
def keyWords (key : List Nat) (bits : Nat) : List Nat :=
  let c := if bits % 32 = 0 then bits / 32 else bits / 32 + 1
  let kw := loadKeyBytes key (bits / 8) (List.replicate c 0)
  if bits % 32 ≠ 0 ∧ bits % 8 > 0 then
    kw.set (c - 1) (kw.getD (c - 1) 0 &&& (4294967295 ^^^ (255 <<< (8 * (bits / 8 % 4)))))
  else kw

/-- Embedding of `std::vector::resize` on `round_keys_` (rc6.cpp line 114):
the first `min n (length)` old elements are kept, the rest is padded with
value-initialized (zero) words. -/
def resizeVec (l : List Nat) (n : Nat) : List Nat :=
  l.take n ++ List.replicate (n - l.length) 0

/-- One step of the seeding loop (rc6.cpp line 119):
`round_keys_[i] = round_keys_[i - 1] + Q32` with 32-bit wraparound. -/
def seedStep (S : List Nat) (i : Nat) : List Nat :=
  S.set i (wadd (S.getD (i - 1) 0) Q32)

/-- The seeding loop `for (i = 1; i < key_size; ++i)` (rc6.cpp lines 118-120)
as a recursion: `seedIter S n` performs the writes at indices `1, ..., n`
in increasing order. -/
def seedIter (S : List Nat) : Nat → List Nat
  | 0 => S
  | n + 1 => seedStep (seedIter S n) (n + 1)

/-- The seeding phase of `RC6::init` (rc6.cpp lines 113-120): resize the
(possibly already populated) `round_keys_` vector to `keySize` entries, write
`round_keys_[0] = P32`, then run the seeding loop over indices
`1, ..., keySize - 1`. -/
def seedPhase (old : List Nat) (keySize : Nat) : List Nat :=
  seedIter ((resizeVec old keySize).set 0 P32) (keySize - 1)

/-- The mutable state of the key-mixing loop (rc6.cpp lines 123-124):
the two arrays and the accumulators `a`, `b` and cursors `i`, `j`. -/
structure MixState where
  S : List Nat
  L : List Nat
  a : Nat
  b : Nat
  i : Nat
  j : Nat
  deriving DecidableEq, Repr

/-- One iteration of the key-mixing loop (rc6.cpp lines 127-132):
`a = S[i] = rotl32(S[i] + a + b, 3); b = L[j] = rotl32(L[j] + a + b, (a + b) & 0x1F);
i = (i + 1) % key_size; j = (j + 1) % c`.  The second line reads the updated
`a`, and the additions wrap on `uint32_t`. -/
def mixStep (keySize c : Nat) (st : MixState) : MixState :=
  let a := rotl32 (wadd (wadd (st.S.getD st.i 0) st.a) st.b) 3
  let S := st.S.set st.i a
  let b := rotl32 (wadd (wadd (st.L.getD st.j 0) a) st.b) (wadd a st.b)
  let L := st.L.set st.j b
  ⟨S, L, a, b, (st.i + 1) % keySize, (st.j + 1) % c⟩

/-- The key-mixing loop `for (p = 0; p < v; ++p)` as an iteration count. -/
def mixIter (keySize c : Nat) : Nat → MixState → MixState
  | 0, st => st
  | n + 1, st => mixStep keySize c (mixIter keySize c n st)

/-- The round-key table computed by a successful run of `RC6::init`
(rc6.cpp lines 89-133) with `rounds` rounds, prior table contents `old`,
key bytes `key` and bit length `bits`:
`c = ceil(bits / 32)`, the key-word array, the seeding phase over the resized
prior vector, then `v = 3 * max(c, key_size)` mixing iterations starting from
`a = b = i = j = 0`. -/
def init (rounds : Nat) (old : List Nat) (key : List Nat) (bits : Nat) : List Nat :=
  let c := if bits % 32 = 0 then bits / 32 else bits / 32 + 1
  let kw := keyWords key bits
  let keySize := 2 * rounds + 4
  let S0 := seedPhase old keySize
  let v := 3 * max c keySize
  (mixIter keySize c v ⟨S0, kw, 0, 0, 0, 0⟩).S

/-- The two failure conditions of the public operations (rc6.cpp lines 77-87,
147-153, 200-206): `std::invalid_argument` and the `std::runtime_error`
thrown for uninitialized use. -/
inductive CipherError where
  | invalidArgument
  | notInitialized
  deriving DecidableEq, Repr

/-- The observable state of an `RC6` object (rc6.hpp lines 30-31):
the round count fixed at construction and the round-key vector. -/
structure Cipher where
  rounds : Nat
  roundKeys : List Nat
  deriving DecidableEq, Repr

/-- Embedding of the custom constructor `RC6::RC6(uint8_t rounds)`
(rc6.cpp lines 31-35): rounds above 125 are rejected, otherwise the object
starts with an empty round-key vector. -/
def mkCipher (rounds : Nat) : Except CipherError Cipher :=
  if 125 < rounds then .error .invalidArgument else .ok ⟨rounds, []⟩

/-- Embedding of `RC6::isInitialized` (rc6.cpp lines 248-250). -/
def isInitialized (cip : Cipher) : Bool :=
  !cip.roundKeys.isEmpty

/-- Embedding of `RC6::init` (rc6.cpp lines 76-133) as a state transformer:
the argument checks happen before any mutation, so a failing call returns
the cipher unchanged together with the error.  A `none` key models the null
pointer. -/
def initOp (cip : Cipher) (key : Option (List Nat)) (bits : Nat) :
    Cipher × Option CipherError :=
  if key.isNone then (cip, some .invalidArgument)
  else if bits = 0 then (cip, some .invalidArgument)
  else if 125 < cip.rounds then (cip, some .invalidArgument)
  else ({ cip with roundKeys := init cip.rounds cip.roundKeys (key.getD []) bits }, none)

/-- Embedding of `RC6::encrypt` (rc6.cpp lines 146-186) as an operation on
the caller's 16-byte block: the initialization check precedes every access
to the block, so on failure the block comes back unmodified. -/
def encryptOp (cip : Cipher) (block : List Nat) : List Nat × Option CipherError :=
  if !isInitialized cip then (block, some .notInitialized)
  else (encryptBytes cip.roundKeys cip.rounds block, none)

/-- Embedding of `RC6::decrypt` (rc6.cpp lines 199-239), same shape as
`encryptOp`. -/
def decryptOp (cip : Cipher) (block : List Nat) : List Nat × Option CipherError :=
  if !isInitialized cip then (block, some .notInitialized)
  else (decryptBytes cip.roundKeys cip.rounds block, none)

/-- Left rotation of a 32-bit value by `n mod 32` positions, written in the
arithmetical form of the specification: the low `32 - n mod 32` bits move up
by `n mod 32` positions and the remaining high bits wrap to the bottom. -/
def specRotl (a n : Nat) : Nat :=
  (a % 2 ^ (32 - n % 32)) * 2 ^ (n % 32) + a / 2 ^ (32 - n % 32)

/-- Right rotation of a 32-bit value by `n mod 32` positions in the same
arithmetical form. -/
def specRotr (a n : Nat) : Nat :=
  a / 2 ^ (n % 32) + (a % 2 ^ (n % 32)) * 2 ^ (32 - n % 32)

/-- The seeded table of specification step 3, as a plain recurrence:
`S[0] = P`, `S[i] = S[i-1] + Q` with 32-bit wraparound. -/
def specS : Nat → Nat
  | 0 => P32
  | i + 1 => (specS i + Q32) % 4294967296

/-- The mixing state of specification step 4, with the two tables kept as
functions on indices rather than lists. -/
structure SpecMixState where
  S : Nat → Nat
  L : Nat → Nat
  a : Nat
  b : Nat
  i : Nat
  j : Nat

/-- One mixing iteration exactly as the specification words it:
`a = S[i] = rotateLeft(S[i] + a + b, 3)`,
`b = L[j] = rotateLeft(L[j] + a + b, (a + b) mod 32)`,
`i = (i + 1) mod keySize`, `j = (j + 1) mod c`,
with all arithmetic modulo 2^32. -/
def specMixStep (keySize c : Nat) (st : SpecMixState) : SpecMixState :=
  let a := specRotl ((st.S st.i + st.a + st.b) % 4294967296) 3
  let S := fun k => if k = st.i then a else st.S k
  let b := specRotl ((st.L st.j + a + st.b) % 4294967296) ((a + st.b) % 32)
  let L := fun k => if k = st.j then b else st.L k
  ⟨S, L, a, b, (st.i + 1) % keySize, (st.j + 1) % c⟩

/-- Iterated specification mixing. -/
def specMixIter (keySize c : Nat) : Nat → SpecMixState → SpecMixState
  | 0, st => st
  | n + 1, st => specMixStep keySize c (specMixIter keySize c n st)

/-- The coupling between the list-based mixing state of the source embedding
and the function-based mixing state of the specification: lengths and
cursors are in range, the scalar components agree, and the tables agree on
every in-range index. -/
def MixRel (keySize c : Nat) (st : MixState) (sp : SpecMixState) : Prop :=
  st.S.length = keySize ∧ st.L.length = c ∧ st.a = sp.a ∧ st.b = sp.b ∧
  st.i = sp.i ∧ st.j = sp.j ∧ st.i < keySize ∧ st.j < c ∧
  (∀ k, k < keySize → st.S.getD k 0 = sp.S k) ∧
  (∀ k, k < c → st.L.getD k 0 = sp.L k)

/-- One encryption round exactly as the specification words it:
`t = rotateLeft(B(2B+1) mod 2^32, 5)`, `u = rotateLeft(D(2D+1) mod 2^32, 5)`,
`A = rotateLeft(A xor t, u mod 32) + S[2i]`,
`C = rotateLeft(C xor u, t mod 32) + S[2i+1]`,
then the register rotation `(A,B,C,D) = (B,C,D,A)`. -/
def specEncRound (S : List Nat) (i : Nat) (x : Block) : Block :=
  let t := specRotl (x.b * (2 * x.b + 1) % 4294967296) 5
  let u := specRotl (x.d * (2 * x.d + 1) % 4294967296) 5
  let a := (specRotl (x.a ^^^ t) (u % 32) + S.getD (2 * i) 0) % 4294967296
  let c := (specRotl (x.c ^^^ u) (t % 32) + S.getD (2 * i + 1) 0) % 4294967296
  ⟨x.b, c, x.d, a⟩

/-- The specification round loop `for i = 1..rounds`. -/
def specEncRounds (S : List Nat) : Nat → Block → Block
  | 0, x => x
  | n + 1, x => specEncRound S (n + 1) (specEncRounds S n x)

/-- The whole specification encryption transform on the four registers:
whitening `B += S[0]`, `D += S[1]`, the round loop, whitening
`A += S[2r+2]`, `C += S[2r+3]`. -/
def specEncrypt (S : List Nat) (r : Nat) (x : Block) : Block :=
  let y := specEncRounds S r
    ⟨x.a, (x.b + S.getD 0 0) % 4294967296, x.c, (x.d + S.getD 1 0) % 4294967296⟩
  ⟨(y.a + S.getD (2 * r + 2) 0) % 4294967296, y.b,
    (y.c + S.getD (2 * r + 3) 0) % 4294967296, y.d⟩

/-- The specification encryption on the 16-byte block: read the four
little-endian words, transform, write them back little-endian in place. -/
def specEncryptBytes (S : List Nat) (r : Nat) (bs : List Nat) : List Nat :=
  let y := specEncrypt S r ⟨loadWord bs 0, loadWord bs 1, loadWord bs 2, loadWord bs 3⟩
  storeWord y.a ++ storeWord y.b ++ storeWord y.c ++ storeWord y.d

/-- Bounds-checked list write: `none` exactly when the index is out of
bounds.  Used by the `Option`-returning total embedding. -/
def setO (l : List Nat) (i : Nat) (v : Nat) : Option (List Nat) :=
  if i < l.length then some (l.set i v) else none

/-- Bounds-checked variant of `encRound`: every round-key access goes
through the checked index operator. -/
def encRoundO (S : List Nat) (i : Nat) (x : Block) : Option Block :=
  (S[2 * i]?).bind fun s0 =>
  (S[2 * i + 1]?).bind fun s1 =>
  let t := rotl32 (wmul x.b (wadd (wmul 2 x.b) 1)) LG_W
  let u := rotl32 (wmul x.d (wadd (wmul 2 x.d) 1)) LG_W
  some ⟨x.b, wadd (rotl32 (x.c ^^^ u) t) s1, x.d, wadd (rotl32 (x.a ^^^ t) u) s0⟩

/-- Bounds-checked round loop for encryption. -/
def encRoundsO (S : List Nat) : Nat → Block → Option Block
  | 0, x => some x
  | n + 1, x => (encRoundsO S n x).bind fun y => encRoundO S (n + 1) y

/-- Bounds-checked variant of the word-level `encrypt`. -/
def encryptWordsO (S : List Nat) (r : Nat) (x : Block) : Option Block :=
  (S[0]?).bind fun s0 =>
  (S[1]?).bind fun s1 =>
  (encRoundsO S r ⟨x.a, wadd x.b s0, x.c, wadd x.d s1⟩).bind fun y =>
  (S[2 * r + 2]?).bind fun s2 =>
  (S[2 * r + 3]?).bind fun s3 =>
  some ⟨wadd y.a s2, y.b, wadd y.c s3, y.d⟩

/-- Bounds-checked variant of `decRound`. -/
def decRoundO (S : List Nat) (i : Nat) (x : Block) : Option Block :=
  (S[2 * i]?).bind fun s0 =>
  (S[2 * i + 1]?).bind fun s1 =>
  let a := x.d
  let b := x.a
  let c := x.b
  let d := x.c
  let u := rotl32 (wmul d (wadd (wmul 2 d) 1)) LG_W
  let t := rotl32 (wmul b (wadd (wmul 2 b) 1)) LG_W
  some ⟨rotr32 (wsub a s0) u ^^^ t, b, rotr32 (wsub c s1) t ^^^ u, d⟩

/-- Bounds-checked round loop for decryption. -/
def decRoundsO (S : List Nat) : Nat → Block → Option Block
  | 0, x => some x
  | n + 1, x => (decRoundO S (n + 1) x).bind fun y => decRoundsO S n y

/-- Bounds-checked variant of the word-level `decrypt`. -/
def decryptWordsO (S : List Nat) (r : Nat) (x : Block) : Option Block :=
  (S[2 * r + 2]?).bind fun s2 =>
  (S[2 * r + 3]?).bind fun s3 =>
  (decRoundsO S r ⟨wsub x.a s2, x.b, wsub x.c s3, x.d⟩).bind fun y =>
  (S[0]?).bind fun s0 =>
  (S[1]?).bind fun s1 =>
  some ⟨y.a, wsub y.b s0, y.c, wsub y.d s1⟩

/-- Bounds-checked variant of `loadByte`: both the read and the write of
`key_words[i / 4]` are checked. -/
def loadByteO (key kw : List Nat) (i : Nat) : Option (List Nat) :=
  (kw[i / 4]?).bind fun w => setO kw (i / 4) (w ||| (key.getD i 0 <<< (8 * (i % 4))))

/-- Bounds-checked key-byte loading loop. -/
def loadKeyBytesO (key : List Nat) : Nat → List Nat → Option (List Nat)
  | 0, kw => some kw
  | n + 1, kw => (loadKeyBytesO key n kw).bind fun kw2 => loadByteO key kw2 n

/-- Bounds-checked variant of `keyWords`. -/
def keyWordsO (key : List Nat) (bits : Nat) : Option (List Nat) :=
  let c := if bits % 32 = 0 then bits / 32 else bits / 32 + 1
  (loadKeyBytesO key (bits / 8) (List.replicate c 0)).bind fun kw =>
  if bits % 32 ≠ 0 ∧ bits % 8 > 0 then
    (kw[c - 1]?).bind fun w =>
      setO kw (c - 1) (w &&& (4294967295 ^^^ (255 <<< (8 * (bits / 8 % 4)))))
  else some kw

/-- Bounds-checked seeding step. -/
def seedStepO (S : List Nat) (i : Nat) : Option (List Nat) :=
  (S[i - 1]?).bind fun w => setO S i (wadd w Q32)

/-- Bounds-checked seeding loop. -/
def seedIterO (S : List Nat) : Nat → Option (List Nat)
  | 0 => some S
  | n + 1 => (seedIterO S n).bind fun S2 => seedStepO S2 (n + 1)

/-- Bounds-checked seeding phase. -/
def seedPhaseO (old : List Nat) (keySize : Nat) : Option (List Nat) :=
  (setO (resizeVec old keySize) 0 P32).bind fun base => seedIterO base (keySize - 1)

/-- Bounds-checked mixing step: the reads and writes of `S[i]` and `L[j]`
are all checked. -/
def mixStepO (keySize c : Nat) (st : MixState) : Option MixState :=
  (st.S[st.i]?).bind fun si =>
  let a := rotl32 (wadd (wadd si st.a) st.b) 3
  (setO st.S st.i a).bind fun S =>
  (st.L[st.j]?).bind fun lj =>
  let b := rotl32 (wadd (wadd lj a) st.b) (wadd a st.b)
  (setO st.L st.j b).bind fun L =>
  some ⟨S, L, a, b, (st.i + 1) % keySize, (st.j + 1) % c⟩

/-- Bounds-checked mixing loop. -/
def mixIterO (keySize c : Nat) : Nat → MixState → Option MixState
  | 0, st => some st
  | n + 1, st => (mixIterO keySize c n st).bind fun st2 => mixStepO keySize c st2

/-- Bounds-checked variant of the whole key schedule. -/
def initO (rounds : Nat) (old key : List Nat) (bits : Nat) : Option (List Nat) :=
  let c := if bits % 32 = 0 then bits / 32 else bits / 32 + 1
  (keyWordsO key bits).bind fun kw =>
  (seedPhaseO old (2 * rounds + 4)).bind fun S0 =>
  (mixIterO (2 * rounds + 4) c (3 * max c (2 * rounds + 4)) ⟨S0, kw, 0, 0, 0, 0⟩).bind fun st =>
  some st.S

/-- The cursor and length invariant of the mixing loop. -/
def MixInv (keySize c : Nat) (st : MixState) : Prop :=
  st.S.length = keySize ∧ st.L.length = c ∧ st.i < keySize ∧ st.j < c

theorem wadd_lt (x y : Nat) : wadd x y < 4294967296 :=
  Nat.mod_lt _ (by norm_num)

theorem wmul_lt (x y : Nat) : wmul x y < 4294967296 :=
  Nat.mod_lt _ (by norm_num)

theorem wsub_lt (x y : Nat) : wsub x y < 4294967296 :=
  Nat.mod_lt _ (by norm_num)

theorem wsub_wadd (x s : Nat) (h : x < 4294967296) : wsub (wadd x s) s = x := by
  unfold wadd wsub
  omega

theorem xor_lt32 {x y : Nat} (hx : x < 4294967296) (hy : y < 4294967296) :
    x ^^^ y < 4294967296 := by
  have h32 : (4294967296 : Nat) = 2 ^ 32 := by norm_num
  rw [h32] at hx hy ⊢
  exact Nat.xor_lt_two_pow hx hy

theorem xor_xor_cancel (x t : Nat) : (x ^^^ t) ^^^ t = x := by
  rw [Nat.xor_assoc, Nat.xor_self, Nat.xor_zero]

theorem rotl32_lt (a n : Nat) (h : a < 4294967296) : rotl32 a n < 4294967296 := by
  unfold rotl32
  have h32 : (4294967296 : Nat) = 2 ^ 32 := by norm_num
  rw [h32]
  apply Nat.or_lt_two_pow
  · exact h32 ▸ Nat.mod_lt _ (by norm_num)
  · rw [Nat.shiftRight_eq_div_pow]
    exact lt_of_le_of_lt (Nat.div_le_self _ _) (h32 ▸ h)

theorem rotr32_lt (a n : Nat) (h : a < 4294967296) : rotr32 a n < 4294967296 := by
  unfold rotr32
  have h32 : (4294967296 : Nat) = 2 ^ 32 := by norm_num
  rw [h32]
  apply Nat.or_lt_two_pow
  · rw [Nat.shiftRight_eq_div_pow]
    exact lt_of_le_of_lt (Nat.div_le_self _ _) (h32 ▸ h)
  · exact h32 ▸ Nat.mod_lt _ (by norm_num)

theorem rotl32_eq_spec (a n : Nat) (h : a < 4294967296) : rotl32 a n = specRotl a n := by
  unfold rotl32 specRotl
  have hm32 : n % 32 < 32 := Nat.mod_lt _ (by norm_num)
  set m := n % 32 with hmdef
  set k := 32 - m with hkdef
  have hkm : k + m = 32 := by omega
  have hpow : (2 : Nat) ^ k * 2 ^ m = 4294967296 := by
    rw [← pow_add, hkm]; norm_num
  have hq : a / 2 ^ k < 2 ^ m := by
    rw [Nat.div_lt_iff_lt_mul (Nat.pos_pow_of_pos _ (by norm_num))]
    calc a < 4294967296 := h
    _ = 2 ^ m * 2 ^ k := by rw [Nat.mul_comm, hpow]
  have hrem : a % 2 ^ k < 2 ^ k := Nat.mod_lt _ (Nat.pos_pow_of_pos _ (by norm_num))
  have hsplit : a * 2 ^ m = 4294967296 * (a / 2 ^ k) + a % 2 ^ k * 2 ^ m := by
    conv_lhs => rw [← Nat.div_add_mod a (2 ^ k)]
    rw [Nat.add_mul, Nat.mul_assoc, Nat.mul_comm (a / 2 ^ k) (2 ^ m), ← Nat.mul_assoc, hpow]
  have hlow : a % 2 ^ k * 2 ^ m < 4294967296 := by
    calc a % 2 ^ k * 2 ^ m < 2 ^ k * 2 ^ m :=
      Nat.mul_lt_mul_of_lt_of_le hrem (Nat.le_refl _) (Nat.pos_pow_of_pos _ (by norm_num))
    _ = 4294967296 := hpow
  rw [Nat.shiftLeft_eq, Nat.shiftRight_eq_div_pow, hsplit, Nat.mul_add_mod,
    Nat.mod_eq_of_lt hlow, Nat.mul_comm (a % 2 ^ k) (2 ^ m)]
  rw [← Nat.mul_add_lt_is_or hq (a % 2 ^ k), Nat.mul_comm (2 ^ m) (a % 2 ^ k)]

theorem rotr32_eq_spec (a n : Nat) (h : a < 4294967296) : rotr32 a n = specRotr a n := by
  unfold rotr32 specRotr
  have hm32 : n % 32 < 32 := Nat.mod_lt _ (by norm_num)
  set m := n % 32 with hmdef
  set k := 32 - m with hkdef
  have hkm : m + k = 32 := by omega
  have hpow : (2 : Nat) ^ m * 2 ^ k = 4294967296 := by
    rw [← pow_add, hkm]; norm_num
  have hq : a / 2 ^ m < 2 ^ k := by
    rw [Nat.div_lt_iff_lt_mul (Nat.pos_pow_of_pos _ (by norm_num))]
    calc a < 4294967296 := h
    _ = 2 ^ k * 2 ^ m := by rw [Nat.mul_comm, hpow]
  have hrem : a % 2 ^ m < 2 ^ m := Nat.mod_lt _ (Nat.pos_pow_of_pos _ (by norm_num))
  have hsplit : a * 2 ^ k = 4294967296 * (a / 2 ^ m) + a % 2 ^ m * 2 ^ k := by
    conv_lhs => rw [← Nat.div_add_mod a (2 ^ m)]
    rw [Nat.add_mul, Nat.mul_assoc, Nat.mul_comm (a / 2 ^ m) (2 ^ k), ← Nat.mul_assoc, hpow]
  have hlow : a % 2 ^ m * 2 ^ k < 4294967296 := by
    calc a % 2 ^ m * 2 ^ k < 2 ^ m * 2 ^ k :=
      Nat.mul_lt_mul_of_lt_of_le hrem (Nat.le_refl _) (Nat.pos_pow_of_pos _ (by norm_num))
    _ = 4294967296 := hpow
  rw [Nat.shiftLeft_eq, Nat.shiftRight_eq_div_pow, hsplit, Nat.mul_add_mod,
    Nat.mod_eq_of_lt hlow]
  rw [Nat.lor_comm, Nat.mul_comm (a % 2 ^ m) (2 ^ k), Nat.add_comm (a / 2 ^ m),
    Nat.mul_add_lt_is_or hq (a % 2 ^ m)]

theorem rotr32_rotl32 (a n : Nat) (h : a < 4294967296) : rotr32 (rotl32 a n) n = a := by
  have h1 : rotl32 a n < 4294967296 := rotl32_lt a n h
  rw [rotl32_eq_spec a n h] at h1 ⊢
  rw [rotr32_eq_spec _ n h1]
  unfold specRotl specRotr
  have hm32 : n % 32 < 32 := Nat.mod_lt _ (by norm_num)
  set m := n % 32 with hmdef
  set k := 32 - m with hkdef
  have hpow : (2 : Nat) ^ m * 2 ^ k = 4294967296 := by
    rw [← pow_add]
    have hmk : m + k = 32 := by omega
    rw [hmk]; norm_num
  have hq : a / 2 ^ k < 2 ^ m := by
    rw [Nat.div_lt_iff_lt_mul (Nat.pos_pow_of_pos _ (by norm_num))]
    calc a < 4294967296 := h
    _ = 2 ^ m * 2 ^ k := hpow.symm
  have hdiv : (a % 2 ^ k * 2 ^ m + a / 2 ^ k) / 2 ^ m = a % 2 ^ k := by
    rw [Nat.mul_comm (a % 2 ^ k) (2 ^ m), Nat.mul_add_div (Nat.pos_pow_of_pos _ (by norm_num)),
      Nat.div_eq_of_lt hq, Nat.add_zero]
  have hmod : (a % 2 ^ k * 2 ^ m + a / 2 ^ k) % 2 ^ m = a / 2 ^ k := by
    rw [Nat.mul_comm (a % 2 ^ k) (2 ^ m), Nat.mul_add_mod, Nat.mod_eq_of_lt hq]
  rw [hdiv, hmod, Nat.add_comm, Nat.mul_comm]
  exact Nat.div_add_mod a (2 ^ k)

theorem encRound_wf (S : List Nat) (i : Nat) (x : Block) (hx : x.Wf) :
    (encRound S i x).Wf := by
  obtain ⟨a, b, c, d⟩ := x
  obtain ⟨_, hb, _, hd⟩ := hx
  exact ⟨hb, wadd_lt _ _, hd, wadd_lt _ _⟩

theorem encRounds_wf (S : List Nat) (r : Nat) (x : Block) (hx : x.Wf) :
    (encRounds S r x).Wf := by
  induction r with
  | zero => exact hx
  | succ n ih => exact encRound_wf S (n + 1) _ ih

theorem decRound_encRound (S : List Nat) (i : Nat) (x : Block) (hx : x.Wf) :
    decRound S i (encRound S i x) = x := by
  obtain ⟨a, b, c, d⟩ := x
  obtain ⟨ha, hb, hc, hd⟩ := hx
  dsimp only at ha hb hc hd
  have ht : rotl32 (wmul b (wadd (wmul 2 b) 1)) LG_W < 4294967296 :=
    rotl32_lt _ _ (wmul_lt _ _)
  have hu : rotl32 (wmul d (wadd (wmul 2 d) 1)) LG_W < 4294967296 :=
    rotl32_lt _ _ (wmul_lt _ _)
  dsimp only [encRound, decRound]
  simp only [Block.mk.injEq]
  refine ⟨?_, trivial, ?_, trivial⟩
  · rw [wsub_wadd _ _ (rotl32_lt _ _ (xor_lt32 ha ht)),
      rotr32_rotl32 _ _ (xor_lt32 ha ht), xor_xor_cancel]
  · rw [wsub_wadd _ _ (rotl32_lt _ _ (xor_lt32 hc hu)),
      rotr32_rotl32 _ _ (xor_lt32 hc hu), xor_xor_cancel]

theorem decRounds_encRounds (S : List Nat) (r : Nat) (x : Block) (hx : x.Wf) :
    decRounds S r (encRounds S r x) = x := by
  induction r with
  | zero => rfl
  | succ n ih =>
    show decRounds S n (decRound S (n + 1) (encRound S (n + 1) (encRounds S n x))) = x
    rw [decRound_encRound S (n + 1) _ (encRounds_wf S n x hx), ih]

theorem decryptWords_encryptWords (S : List Nat) (r : Nat) (x : Block) (hx : x.Wf) :
    decryptWords S r (encryptWords S r x) = x := by
  obtain ⟨a, b, c, d⟩ := x
  obtain ⟨ha, hb, hc, hd⟩ := hx
  dsimp only at ha hb hc hd
  have hwf : (encRounds S r ⟨a, wadd b (S.getD 0 0), c, wadd d (S.getD 1 0)⟩).Wf :=
    encRounds_wf S r ⟨a, wadd b (S.getD 0 0), c, wadd d (S.getD 1 0)⟩
      ⟨ha, wadd_lt _ _, hc, wadd_lt _ _⟩
  dsimp only [encryptWords, decryptWords]
  rw [wsub_wadd _ _ hwf.1, wsub_wadd _ _ hwf.2.2.1]
  rw [show (⟨(encRounds S r ⟨a, wadd b (S.getD 0 0), c, wadd d (S.getD 1 0)⟩).a,
        (encRounds S r ⟨a, wadd b (S.getD 0 0), c, wadd d (S.getD 1 0)⟩).b,
        (encRounds S r ⟨a, wadd b (S.getD 0 0), c, wadd d (S.getD 1 0)⟩).c,
        (encRounds S r ⟨a, wadd b (S.getD 0 0), c, wadd d (S.getD 1 0)⟩).d⟩ : Block) =
      encRounds S r ⟨a, wadd b (S.getD 0 0), c, wadd d (S.getD 1 0)⟩ from rfl]
  rw [decRounds_encRounds S r ⟨a, wadd b (S.getD 0 0), c, wadd d (S.getD 1 0)⟩
    ⟨ha, wadd_lt _ _, hc, wadd_lt _ _⟩]
  simp only [Block.mk.injEq]
  exact ⟨trivial, wsub_wadd _ _ hb, trivial, wsub_wadd _ _ hd⟩

theorem getD_lt_256 (bs : List Nat) (h : ∀ x ∈ bs, x < 256) (i : Nat) :
    bs.getD i 0 < 256 := by
  rcases Nat.lt_or_ge i bs.length with hlt | hge
  · rw [List.getD_eq_getElem bs 0 hlt]
    exact h _ (List.getElem_mem hlt)
  · rw [List.getD_eq_default bs 0 hge]
    norm_num

theorem loadWord_lt (bs : List Nat) (i : Nat) (h : ∀ x ∈ bs, x < 256) :
    loadWord bs i < 4294967296 := by
  unfold loadWord
  have h0 := getD_lt_256 bs h (4 * i)
  have h1 := getD_lt_256 bs h (4 * i + 1)
  have h2 := getD_lt_256 bs h (4 * i + 2)
  have h3 := getD_lt_256 bs h (4 * i + 3)
  omega

theorem loadWord_storeWords (w0 w1 w2 w3 : Nat)
    (h0 : w0 < 4294967296) (h1 : w1 < 4294967296)
    (h2 : w2 < 4294967296) (h3 : w3 < 4294967296) :
    loadWord (storeWord w0 ++ storeWord w1 ++ storeWord w2 ++ storeWord w3) 0 = w0 ∧
    loadWord (storeWord w0 ++ storeWord w1 ++ storeWord w2 ++ storeWord w3) 1 = w1 ∧
    loadWord (storeWord w0 ++ storeWord w1 ++ storeWord w2 ++ storeWord w3) 2 = w2 ∧
    loadWord (storeWord w0 ++ storeWord w1 ++ storeWord w2 ++ storeWord w3) 3 = w3 := by
  refine ⟨?_, ?_, ?_, ?_⟩ <;> (simp [storeWord, loadWord]; omega)

theorem storeWords_loadWords (bs : List Nat) (hlen : bs.length = 16)
    (hb : ∀ x ∈ bs, x < 256) :
    storeWord (loadWord bs 0) ++ storeWord (loadWord bs 1) ++
      storeWord (loadWord bs 2) ++ storeWord (loadWord bs 3) = bs := by
  rcases bs with _ | ⟨b0, bs⟩; · simp at hlen
  rcases bs with _ | ⟨b1, bs⟩; · simp at hlen
  rcases bs with _ | ⟨b2, bs⟩; · simp at hlen
  rcases bs with _ | ⟨b3, bs⟩; · simp at hlen
  rcases bs with _ | ⟨b4, bs⟩; · simp at hlen
  rcases bs with _ | ⟨b5, bs⟩; · simp at hlen
  rcases bs with _ | ⟨b6, bs⟩; · simp at hlen
  rcases bs with _ | ⟨b7, bs⟩; · simp at hlen
  rcases bs with _ | ⟨b8, bs⟩; · simp at hlen
  rcases bs with _ | ⟨b9, bs⟩; · simp at hlen
  rcases bs with _ | ⟨b10, bs⟩; · simp at hlen
  rcases bs with _ | ⟨b11, bs⟩; · simp at hlen
  rcases bs with _ | ⟨b12, bs⟩; · simp at hlen
  rcases bs with _ | ⟨b13, bs⟩; · simp at hlen
  rcases bs with _ | ⟨b14, bs⟩; · simp at hlen
  rcases bs with _ | ⟨b15, bs⟩; · simp at hlen
  have hnil : bs = [] := List.eq_nil_of_length_eq_zero (by simpa using hlen)
  subst hnil
  have h0 : b0 < 256 := hb b0 (by simp)
  have h1 : b1 < 256 := hb b1 (by simp)
  have h2 : b2 < 256 := hb b2 (by simp)
  have h3 : b3 < 256 := hb b3 (by simp)
  have h4 : b4 < 256 := hb b4 (by simp)
  have h5 : b5 < 256 := hb b5 (by simp)
  have h6 : b6 < 256 := hb b6 (by simp)
  have h7 : b7 < 256 := hb b7 (by simp)
  have h8 : b8 < 256 := hb b8 (by simp)
  have h9 : b9 < 256 := hb b9 (by simp)
  have h10 : b10 < 256 := hb b10 (by simp)
  have h11 : b11 < 256 := hb b11 (by simp)
  have h12 : b12 < 256 := hb b12 (by simp)
  have h13 : b13 < 256 := hb b13 (by simp)
  have h14 : b14 < 256 := hb b14 (by simp)
  have h15 : b15 < 256 := hb b15 (by simp)
  simp only [storeWord, loadWord, List.cons_append, List.nil_append]
  simp
  and_intros <;> omega

theorem encryptWords_wf (S : List Nat) (r : Nat) (x : Block) (hx : x.Wf) :
    (encryptWords S r x).Wf := by
  obtain ⟨a, b, c, d⟩ := x
  obtain ⟨ha, hb, hc, hd⟩ := hx
  dsimp only at ha hb hc hd
  have hwf : (encRounds S r ⟨a, wadd b (S.getD 0 0), c, wadd d (S.getD 1 0)⟩).Wf :=
    encRounds_wf S r ⟨a, wadd b (S.getD 0 0), c, wadd d (S.getD 1 0)⟩
      ⟨ha, wadd_lt _ _, hc, wadd_lt _ _⟩
  exact ⟨wadd_lt _ _, hwf.2.1, wadd_lt _ _, hwf.2.2.2⟩

theorem decryptBytes_encryptBytes (S : List Nat) (r : Nat) (bs : List Nat)
    (hlen : bs.length = 16) (hb : ∀ x ∈ bs, x < 256) :
    decryptBytes S r (encryptBytes S r bs) = bs := by
  have hwf : (Block.mk (loadWord bs 0) (loadWord bs 1) (loadWord bs 2) (loadWord bs 3)).Wf :=
    ⟨loadWord_lt bs 0 hb, loadWord_lt bs 1 hb, loadWord_lt bs 2 hb, loadWord_lt bs 3 hb⟩
  have hywf : (encryptWords S r ⟨loadWord bs 0, loadWord bs 1, loadWord bs 2, loadWord bs 3⟩).Wf :=
    encryptWords_wf S r _ hwf
  dsimp only [encryptBytes, decryptBytes]
  set E := encryptWords S r ⟨loadWord bs 0, loadWord bs 1, loadWord bs 2, loadWord bs 3⟩ with hE
  obtain ⟨l0, l1, l2, l3⟩ :=
    loadWord_storeWords E.a E.b E.c E.d hywf.1 hywf.2.1 hywf.2.2.1 hywf.2.2.2
  rw [l0, l1, l2, l3]
  rw [show (⟨E.a, E.b, E.c, E.d⟩ : Block) = E from rfl, hE,
    decryptWords_encryptWords S r ⟨loadWord bs 0, loadWord bs 1, loadWord bs 2, loadWord bs 3⟩ hwf]
  exact storeWords_loadWords bs hlen hb

theorem resizeVec_length (l : List Nat) (n : Nat) : (resizeVec l n).length = n := by
  simp [resizeVec]
  omega

theorem seedStep_length (S : List Nat) (i : Nat) : (seedStep S i).length = S.length := by
  simp [seedStep]

theorem seedIter_length (S : List Nat) (n : Nat) : (seedIter S n).length = S.length := by
  induction n with
  | zero => rfl
  | succ m ih => simp only [seedIter, seedStep_length, ih]

theorem seedPhase_length (old : List Nat) (ks : Nat) : (seedPhase old ks).length = ks := by
  simp only [seedPhase, seedIter_length, List.length_set, resizeVec_length]

theorem mixIter_S_length (keySize c n : Nat) (st : MixState) :
    (mixIter keySize c n st).S.length = st.S.length := by
  induction n with
  | zero => rfl
  | succ m ih => simp only [mixIter, mixStep, List.length_set, ih]

theorem init_length (rounds : Nat) (old key : List Nat) (bits : Nat) :
    (init rounds old key bits).length = 2 * rounds + 4 := by
  dsimp only [init]
  rw [mixIter_S_length]
  exact seedPhase_length old (2 * rounds + 4)

theorem init_ne_nil (rounds : Nat) (old key : List Nat) (bits : Nat) :
    init rounds old key bits ≠ [] := by
  intro hcon
  have := init_length rounds old key bits
  rw [hcon] at this
  simp at this

/-- C1: for every round count `r ∈ [0, 125]`, every key whose bit length is a
positive multiple of 8, and every 16-byte block `x`, on a Cipher constructed
with `r` rounds and initialized with that key, `decrypt (encrypt x)` restores
`x` exactly (with no error), including the `r = 0` case. -/
theorem claim1_inverse_law (r : Nat) (key : List Nat) (bits : Nat) (bs : List Nat)
    (hr : r ≤ 125) (h8 : bits % 8 = 0) (h0 : 0 < bits) (h16 : bits < 65536)
    (hlen : bs.length = 16) (hb : ∀ x ∈ bs, x < 256) :
    decryptOp (initOp ⟨r, []⟩ (some key) bits).1
      (encryptOp (initOp ⟨r, []⟩ (some key) bits).1 bs).1 = (bs, none) := by
  have hinit : (initOp ⟨r, []⟩ (some key) bits).1 = ⟨r, init r [] key bits⟩ := by
    unfold initOp
    simp only [Option.isNone_some, Bool.false_eq_true, if_false]
    rw [if_neg (by omega), if_neg (by simpa using Nat.not_lt.mpr hr)]
    rfl
  rw [hinit]
  have hne : (init r [] key bits).isEmpty = false := by
    rw [List.isEmpty_eq_false]
    exact init_ne_nil r [] key bits
  unfold encryptOp decryptOp isInitialized
  simp only [hne, Bool.not_false, Bool.not_true, Bool.false_eq_true, if_false]
  exact congrArg (·, none) (decryptBytes_encryptBytes _ r bs hlen hb)

theorem claim1_inverse_law_witness :
    decryptOp (initOp ⟨0, []⟩ (some [1]) 8).1
      (encryptOp (initOp ⟨0, []⟩ (some [1]) 8).1 (List.replicate 16 0)).1 =
      (List.replicate 16 0, none) :=
  claim1_inverse_law 0 [1] 8 (List.replicate 16 0) (by decide) (by decide)
    (by decide) (by decide) (by decide) (by decide)

/-- C2: with rounds = 20, after `init` with a key of 16 zero bytes
(128 key bits), `encrypt` of the all-zero 16-byte block produces exactly the
ciphertext bytes 8f c3 a5 36 56 b1 f7 78 c1 29 df 4e 98 48 a4 1e. -/
theorem claim2_known_answer_zero_key :
    encryptOp (initOp ⟨20, []⟩ (some (List.replicate 16 0)) 128).1
      (List.replicate 16 0) =
      ([0x8f, 0xc3, 0xa5, 0x36, 0x56, 0xb1, 0xf7, 0x78,
        0xc1, 0x29, 0xdf, 0x4e, 0x98, 0x48, 0xa4, 0x1e], none) := by
  decide

/-- C6: a freshly constructed Cipher, on which `init` has not run
(`roundKeys` empty), fails `encrypt` and `decrypt` with the NotInitialized
condition and returns the 16-byte block completely unmodified. -/
theorem claim6_uninitialized_use_fails (rounds : Nat) (cip : Cipher) (block : List Nat)
    (hmk : mkCipher rounds = .ok cip) :
    encryptOp cip block = (block, some .notInitialized) ∧
    decryptOp cip block = (block, some .notInitialized) := by
  unfold mkCipher at hmk
  split at hmk
  · cases hmk
  · cases hmk
    exact ⟨rfl, rfl⟩

theorem claim6_uninitialized_use_fails_witness :
    encryptOp ⟨20, []⟩ (List.replicate 16 7) = (List.replicate 16 7, some .notInitialized) ∧
    decryptOp ⟨20, []⟩ (List.replicate 16 7) = (List.replicate 16 7, some .notInitialized) :=
  claim6_uninitialized_use_fails 20 ⟨20, []⟩ (List.replicate 16 7) rfl

/-- C7: `init` fails with the InvalidArgument condition exactly when the key
is null, the bit length is 0, or the round count exceeds 125, and on such a
failure the cipher state (including any prior round keys) is unchanged. -/
theorem claim7_init_invalid_argument (cip : Cipher) (key : Option (List Nat)) (bits : Nat) :
    initOp cip key bits = (cip, some .invalidArgument) ↔
      (key = none ∨ bits = 0 ∨ 125 < cip.rounds) := by
  unfold initOp
  rcases key with _ | k
  · simp
  · simp only [Option.isNone_some, Bool.false_eq_true, if_false]
    by_cases hb : bits = 0
    · simp [hb]
    · rw [if_neg hb]
      by_cases hr : 125 < cip.rounds
      · simp [hr]
      · simp [hb, hr]

/-- C9: for every 32-bit value `a` and 8-bit rotation amount `n`, `rotl32`
computes the left rotation of `a` by `n mod 32` and `rotr32` the right
rotation by `n mod 32`; when `n mod 32 = 0` (including `n = 0` and `n = 32`)
both return `a` unchanged. -/
theorem claim9_rotation_helpers (a n : Nat) (ha : a < 4294967296) (hn : n < 256) :
    rotl32 a n = specRotl a n ∧ rotr32 a n = specRotr a n ∧
    (n % 32 = 0 → rotl32 a n = a ∧ rotr32 a n = a) := by
  refine ⟨rotl32_eq_spec a n ha, rotr32_eq_spec a n ha, fun hz => ?_⟩
  rw [rotl32_eq_spec a n ha, rotr32_eq_spec a n ha]
  unfold specRotl specRotr
  rw [hz]
  norm_num
  omega

theorem claim9_rotation_helpers_witness :
    rotl32 123456 32 = specRotl 123456 32 ∧ rotr32 123456 32 = specRotr 123456 32 ∧
    (32 % 32 = 0 → rotl32 123456 32 = 123456 ∧ rotr32 123456 32 = 123456) :=
  claim9_rotation_helpers 123456 32 (by decide) (by decide)

theorem loadKeyBytes_key_congr (k1 k2 : List Nat) (n : Nat) (kw : List Nat)
    (h : ∀ i, i < n → k1.getD i 0 = k2.getD i 0) :
    loadKeyBytes k1 n kw = loadKeyBytes k2 n kw := by
  induction n with
  | zero => rfl
  | succ m ih =>
    show loadByte k1 (loadKeyBytes k1 m kw) m = loadByte k2 (loadKeyBytes k2 m kw) m
    rw [ih (fun i hi => h i (Nat.lt_trans hi (Nat.lt_succ_self m)))]
    unfold loadByte
    rw [h m (Nat.lt_succ_self m)]

theorem keyWords_key_congr (k1 k2 : List Nat) (bits : Nat)
    (h : ∀ i, i < bits / 8 → k1.getD i 0 = k2.getD i 0) :
    keyWords k1 bits = keyWords k2 bits := by
  dsimp only [keyWords]
  rw [loadKeyBytes_key_congr k1 k2 (bits / 8) _ h]

/-- C5: for a key bit length that is positive and not a multiple of 8, the
round-key table produced by `init` depends only on the first
`keyLengthBits / 8` whole key bytes: two keys agreeing on those bytes yield
identical round keys (the trailing partial byte never contributes, the
masking being byte-granular). -/
theorem claim5_partial_byte_ignored (rounds : Nat) (old k1 k2 : List Nat) (bits : Nat)
    (h8 : bits % 8 ≠ 0)
    (h : ∀ i, i < bits / 8 → k1.getD i 0 = k2.getD i 0) :
    init rounds old k1 bits = init rounds old k2 bits := by
  dsimp only [init]
  rw [keyWords_key_congr k1 k2 bits h]

theorem claim5_partial_byte_ignored_witness :
    init 0 [] [5, 200] 9 = init 0 [] [5, 7] 9 :=
  claim5_partial_byte_ignored 0 [] [5, 200] [5, 7] 9 (by decide) (by decide)

theorem seedIter_getD (old : List Nat) (ks : Nat) (hks : 0 < ks) :
    ∀ n, n ≤ ks - 1 → ∀ p, p ≤ n →
      (seedIter ((resizeVec old ks).set 0 P32) n).getD p 0 = specS p := by
  intro n
  induction n with
  | zero =>
    intro _ p hp
    interval_cases p
    rw [List.getD_eq_getElem?_getD, seedIter]
    rw [List.getElem?_set_self (by rw [resizeVec_length]; omega)]
    rfl
  | succ m ih =>
    intro hm p hp
    have hlen : (seedIter ((resizeVec old ks).set 0 P32) m).length = ks := by
      rw [seedIter_length, List.length_set, resizeVec_length]
    show (seedStep (seedIter ((resizeVec old ks).set 0 P32) m) (m + 1)).getD p 0 = specS p
    unfold seedStep
    rcases Nat.lt_or_ge p (m + 1) with hlt | hge
    · rw [List.getD_eq_getElem?_getD, List.getElem?_set_ne (by omega),
        ← List.getD_eq_getElem?_getD]
      exact ih (by omega) p (by omega)
    · have hpe : p = m + 1 := by omega
      subst hpe
      rw [List.getD_eq_getElem?_getD, List.getElem?_set_self (by omega),
        Option.getD_some]
      simp only [Nat.add_sub_cancel]
      rw [ih (by omega) m (Nat.le_refl m)]
      rfl

theorem seedPhase_getD (old : List Nat) (ks : Nat) (hks : 0 < ks) (p : Nat) (hp : p < ks) :
    (seedPhase old ks).getD p 0 = specS p :=
  seedIter_getD old ks hks (ks - 1) (Nat.le_refl _) p (by omega)

theorem list_ext_getD (l1 l2 : List Nat) (hlen : l1.length = l2.length)
    (h : ∀ k, k < l1.length → l1.getD k 0 = l2.getD k 0) : l1 = l2 := by
  apply List.ext_getElem?
  intro n
  by_cases hn : n < l1.length
  · rw [List.getElem?_eq_getElem hn, List.getElem?_eq_getElem (hlen ▸ hn)]
    have heq := h n hn
    rw [List.getD_eq_getElem l1 0 hn, List.getD_eq_getElem l2 0 (hlen ▸ hn)] at heq
    rw [heq]
  · rw [List.getElem?_eq_none (by omega), List.getElem?_eq_none (by omega)]

theorem seedPhase_old_irrelevant (old1 old2 : List Nat) (ks : Nat) (hks : 0 < ks) :
    seedPhase old1 ks = seedPhase old2 ks := by
  apply list_ext_getD
  · rw [seedPhase_length, seedPhase_length]
  · intro k hk
    rw [seedPhase_length] at hk
    rw [seedPhase_getD old1 ks hks k hk, seedPhase_getD old2 ks hks k hk]

theorem init_old_irrelevant (rounds : Nat) (old1 old2 key : List Nat) (bits : Nat) :
    init rounds old1 key bits = init rounds old2 key bits := by
  dsimp only [init]
  rw [seedPhase_old_irrelevant old1 old2 (2 * rounds + 4) (by omega)]

/-- C8: the round keys produced by a successful `init` are a function of
(rounds, key bytes, key bit length) alone.  Whatever the prior contents of
`roundKeys` (empty for a fresh Cipher, or a full table from an earlier
`init`), re-running `init` computes the identical table, and encryption
under the two resulting ciphers produces identical ciphertext for every
block. -/
theorem claim8_schedule_deterministic (rounds : Nat) (key : List Nat) (bits : Nat)
    (old1 old2 : List Nat) :
    init rounds old1 key bits = init rounds old2 key bits ∧
    ∀ bs, encryptOp ⟨rounds, init rounds old1 key bits⟩ bs =
      encryptOp ⟨rounds, init rounds old2 key bits⟩ bs := by
  refine ⟨init_old_irrelevant rounds old1 old2 key bits, fun bs => ?_⟩
  rw [init_old_irrelevant rounds old1 old2 key bits]

theorem wadd_wadd (x y z : Nat) : wadd (wadd x y) z = (x + y + z) % 4294967296 := by
  unfold wadd
  omega

theorem wmul_wadd_wmul (b : Nat) :
    wmul b (wadd (wmul 2 b) 1) = b * (2 * b + 1) % 4294967296 := by
  unfold wmul wadd
  conv_lhs => rw [Nat.mul_mod]
  conv_rhs => rw [Nat.mul_mod]
  congr 2
  omega

theorem specRotl_lt (x n : Nat) (h : x < 4294967296) : specRotl x n < 4294967296 :=
  rotl32_eq_spec x n h ▸ rotl32_lt x n h

theorem specRotl_mod32 (x n : Nat) : specRotl x (n % 32) = specRotl x n := by
  unfold specRotl
  have h : n % 32 % 32 = n % 32 := by omega
  rw [h]

theorem encRound_eq_spec (S : List Nat) (i : Nat) (x : Block) (hx : x.Wf) :
    encRound S i x = specEncRound S i x := by
  obtain ⟨a, b, c, d⟩ := x
  obtain ⟨ha, hb, hc, hd⟩ := hx
  dsimp only at ha hb hc hd
  dsimp only [encRound, specEncRound, LG_W]
  rw [wmul_wadd_wmul b, wmul_wadd_wmul d]
  rw [rotl32_eq_spec (b * (2 * b + 1) % 4294967296) 5 (Nat.mod_lt _ (by norm_num)),
    rotl32_eq_spec (d * (2 * d + 1) % 4294967296) 5 (Nat.mod_lt _ (by norm_num))]
  set T := specRotl (b * (2 * b + 1) % 4294967296) 5 with hT
  set U := specRotl (d * (2 * d + 1) % 4294967296) 5 with hU
  have hTlt : T < 4294967296 := specRotl_lt _ _ (Nat.mod_lt _ (by norm_num))
  have hUlt : U < 4294967296 := specRotl_lt _ _ (Nat.mod_lt _ (by norm_num))
  rw [rotl32_eq_spec (a ^^^ T) U (xor_lt32 ha hTlt),
    rotl32_eq_spec (c ^^^ U) T (xor_lt32 hc hUlt),
    ← specRotl_mod32 (a ^^^ T) U, ← specRotl_mod32 (c ^^^ U) T]
  simp only [wadd]

theorem specEncRounds_eq (S : List Nat) (n : Nat) (x : Block) (hx : x.Wf) :
    encRounds S n x = specEncRounds S n x := by
  induction n with
  | zero => rfl
  | succ m ih =>
    show encRound S (m + 1) (encRounds S m x) = specEncRound S (m + 1) (specEncRounds S m x)
    rw [← ih, encRound_eq_spec S (m + 1) _ (encRounds_wf S m x hx)]

theorem encryptWords_eq_spec (S : List Nat) (r : Nat) (x : Block) (hx : x.Wf) :
    encryptWords S r x = specEncrypt S r x := by
  obtain ⟨a, b, c, d⟩ := x
  obtain ⟨ha, hb, hc, hd⟩ := hx
  dsimp only at ha hb hc hd
  dsimp only [encryptWords, specEncrypt]
  rw [show wadd b (S.getD 0 0) = (b + S.getD 0 0) % 4294967296 from rfl,
    show wadd d (S.getD 1 0) = (d + S.getD 1 0) % 4294967296 from rfl]
  rw [specEncRounds_eq S r
    ⟨a, (b + S.getD 0 0) % 4294967296, c, (d + S.getD 1 0) % 4294967296⟩
    ⟨ha, Nat.mod_lt _ (by norm_num), hc, Nat.mod_lt _ (by norm_num)⟩]
  simp only [wadd]

/-- C4: for every round-key table, round count and block, the encryption
transform of the source is exactly the specified one — whitening
`B += S[0]`, `D += S[1]`, the `r` rounds with `t`, `u`, the data-dependent
rotations and the register rotation `(A,B,C,D) = (B,C,D,A)`, the final
whitening `A += S[2r+2]`, `C += S[2r+3]`, all modulo 2^32 — and at the
byte level the result is written back in place little-endian. -/
theorem claim4_encrypt_transform (S : List Nat) (r : Nat) (x : Block) (bs : List Nat)
    (hx : x.Wf) (hb : ∀ y ∈ bs, y < 256) :
    encryptWords S r x = specEncrypt S r x ∧
    encryptBytes S r bs = specEncryptBytes S r bs := by
  refine ⟨encryptWords_eq_spec S r x hx, ?_⟩
  dsimp only [encryptBytes, specEncryptBytes]
  rw [encryptWords_eq_spec S r ⟨loadWord bs 0, loadWord bs 1, loadWord bs 2, loadWord bs 3⟩
    ⟨loadWord_lt bs 0 hb, loadWord_lt bs 1 hb, loadWord_lt bs 2 hb, loadWord_lt bs 3 hb⟩]

theorem claim4_encrypt_transform_witness :
    encryptWords [] 1 ⟨1, 2, 3, 4⟩ = specEncrypt [] 1 ⟨1, 2, 3, 4⟩ ∧
    encryptBytes [] 1 (List.replicate 16 0) = specEncryptBytes [] 1 (List.replicate 16 0) :=
  claim4_encrypt_transform [] 1 ⟨1, 2, 3, 4⟩ (List.replicate 16 0) (by decide) (by decide)

theorem specRotl_congr (x m n : Nat) (h : m % 32 = n % 32) : specRotl x m = specRotl x n := by
  unfold specRotl
  rw [h]

theorem mixStep_rel (keySize c : Nat) (hks : 0 < keySize) (hc : 0 < c)
    (st : MixState) (sp : SpecMixState) (h : MixRel keySize c st sp) :
    MixRel keySize c (mixStep keySize c st) (specMixStep keySize c sp) := by
  obtain ⟨hSlen, hLlen, ha, hb, hi, hj, hik, hjc, hS, hL⟩ := h
  have hSi : st.S.getD st.i 0 = sp.S sp.i := by rw [hS st.i hik, hi]
  have hLj : st.L.getD st.j 0 = sp.L sp.j := by rw [hL st.j hjc, hj]
  have haeq : rotl32 (wadd (wadd (st.S.getD st.i 0) st.a) st.b) 3 =
      specRotl ((sp.S sp.i + sp.a + sp.b) % 4294967296) 3 := by
    rw [wadd_wadd, hSi, ha, hb]
    exact rotl32_eq_spec _ 3 (Nat.mod_lt _ (by norm_num))
  have hbeq : rotl32 (wadd (wadd (st.L.getD st.j 0)
        (rotl32 (wadd (wadd (st.S.getD st.i 0) st.a) st.b) 3)) st.b)
        (wadd (rotl32 (wadd (wadd (st.S.getD st.i 0) st.a) st.b) 3) st.b) =
      specRotl ((sp.L sp.j + specRotl ((sp.S sp.i + sp.a + sp.b) % 4294967296) 3 + sp.b)
          % 4294967296)
        ((specRotl ((sp.S sp.i + sp.a + sp.b) % 4294967296) 3 + sp.b) % 32) := by
    rw [haeq, wadd_wadd, hLj, hb]
    rw [rotl32_eq_spec _ _ (Nat.mod_lt _ (by norm_num))]
    apply specRotl_congr
    unfold wadd
    omega
  dsimp only [mixStep, specMixStep, MixRel]
  refine ⟨by simp [hSlen], by simp [hLlen], haeq, hbeq, by rw [hi], by rw [hj],
    Nat.mod_lt _ hks, Nat.mod_lt _ hc, ?_, ?_⟩
  · intro k hk
    by_cases hki : k = st.i
    · subst hki
      rw [List.getD_eq_getElem?_getD, List.getElem?_set_self (by omega), Option.getD_some]
      rw [if_pos hi]
      exact haeq
    · rw [List.getD_eq_getElem?_getD,
        List.getElem?_set_ne (fun hcon => hki hcon.symm), ← List.getD_eq_getElem?_getD]
      rw [hS k hk]
      rw [if_neg (by rw [← hi]; exact hki)]
  · intro k hk
    by_cases hkj : k = st.j
    · subst hkj
      rw [List.getD_eq_getElem?_getD, List.getElem?_set_self (by omega), Option.getD_some]
      rw [if_pos hj]
      exact hbeq
    · rw [List.getD_eq_getElem?_getD,
        List.getElem?_set_ne (fun hcon => hkj hcon.symm), ← List.getD_eq_getElem?_getD]
      rw [hL k hk]
      rw [if_neg (by rw [← hj]; exact hkj)]

theorem mixIter_rel (keySize c : Nat) (hks : 0 < keySize) (hc : 0 < c) :
    ∀ n (st : MixState) (sp : SpecMixState), MixRel keySize c st sp →
      MixRel keySize c (mixIter keySize c n st) (specMixIter keySize c n sp) := by
  intro n
  induction n with
  | zero => intro st sp h; exact h
  | succ m ih => intro st sp h; exact mixStep_rel keySize c hks hc _ _ (ih st sp h)

theorem loadByte_length (key kw : List Nat) (i : Nat) :
    (loadByte key kw i).length = kw.length := by
  simp [loadByte]

theorem loadKeyBytes_length (key : List Nat) (n : Nat) (kw : List Nat) :
    (loadKeyBytes key n kw).length = kw.length := by
  induction n with
  | zero => rfl
  | succ m ih =>
    show (loadByte key (loadKeyBytes key m kw) m).length = _
    rw [loadByte_length, ih]

theorem keyWords_length (key : List Nat) (bits : Nat) :
    (keyWords key bits).length = (if bits % 32 = 0 then bits / 32 else bits / 32 + 1) := by
  dsimp only [keyWords]
  by_cases hm : bits % 32 ≠ 0 ∧ bits % 8 > 0
  · rw [if_pos hm, List.length_set, loadKeyBytes_length, List.length_replicate]
  · rw [if_neg hm, loadKeyBytes_length, List.length_replicate]

/-- C3: for every valid input, `init` computes the round-key table exactly
as the specification states it: `S` has length `keySize = 2·rounds + 4`, it
is seeded `S[0] = P32`, `S[i] = S[i-1] + Q32` modulo 2^32, and then mixed
with the key-word array `L` of `c = ceil(keyLengthBits / 32)` words for
exactly `v = 3·max(c, keySize)` iterations of the stated update, starting
from `a = b = i = j = 0`. -/
theorem claim3_key_schedule (rounds : Nat) (old key : List Nat) (bits : Nat)
    (h0 : 0 < bits) (hr : rounds ≤ 125) (h16 : bits < 65536) :
    (init rounds old key bits).length = 2 * rounds + 4 ∧
    ∀ k, k < 2 * rounds + 4 → (init rounds old key bits).getD k 0 =
      (specMixIter (2 * rounds + 4) ((bits + 31) / 32)
        (3 * max ((bits + 31) / 32) (2 * rounds + 4))
        ⟨specS, fun j => (keyWords key bits).getD j 0, 0, 0, 0, 0⟩).S k := by
  have hceq : (if bits % 32 = 0 then bits / 32 else bits / 32 + 1) = (bits + 31) / 32 := by
    by_cases h : bits % 32 = 0 <;> simp [h] <;> omega
  have hcpos : 0 < (bits + 31) / 32 := by omega
  refine ⟨init_length rounds old key bits, ?_⟩
  intro k hk
  dsimp only [init]
  rw [hceq]
  have hinit : MixRel (2 * rounds + 4) ((bits + 31) / 32)
      ⟨seedPhase old (2 * rounds + 4), keyWords key bits, 0, 0, 0, 0⟩
      ⟨specS, fun j => (keyWords key bits).getD j 0, 0, 0, 0, 0⟩ := by
    refine ⟨seedPhase_length old _, ?_, rfl, rfl, rfl, rfl, by dsimp only; omega, hcpos, ?_, ?_⟩
    · rw [keyWords_length, hceq]
    · intro p hp
      exact seedPhase_getD old (2 * rounds + 4) (by omega) p hp
    · intro p hp
      rfl
  have hrel := mixIter_rel (2 * rounds + 4) ((bits + 31) / 32) (by omega) hcpos
    (3 * max ((bits + 31) / 32) (2 * rounds + 4)) _ _ hinit
  exact hrel.2.2.2.2.2.2.2.2.1 k hk

theorem claim3_key_schedule_witness :
    (init 0 [] [1] 8).length = 2 * 0 + 4 ∧
    ∀ k, k < 2 * 0 + 4 → (init 0 [] [1] 8).getD k 0 =
      (specMixIter (2 * 0 + 4) ((8 + 31) / 32) (3 * max ((8 + 31) / 32) (2 * 0 + 4))
        ⟨specS, fun j => (keyWords [1] 8).getD j 0, 0, 0, 0, 0⟩).S k :=
  claim3_key_schedule 0 [] [1] 8 (by decide) (by decide) (by decide)

theorem encRoundO_eq (S : List Nat) (i : Nat) (x : Block) (h : 2 * i + 1 < S.length) :
    encRoundO S i x = some (encRound S i x) := by
  unfold encRoundO encRound
  rw [List.getElem?_eq_getElem (show 2 * i < S.length by omega),
    List.getElem?_eq_getElem h, Option.some_bind, Option.some_bind]
  rw [List.getD_eq_getElem S 0 (show 2 * i < S.length by omega), List.getD_eq_getElem S 0 h]

theorem encRoundsO_eq (S : List Nat) (n : Nat) (x : Block) (h : 2 * n + 1 < S.length) :
    encRoundsO S n x = some (encRounds S n x) := by
  induction n with
  | zero => rfl
  | succ m ih =>
    show (encRoundsO S m x).bind _ = _
    rw [ih (by omega), Option.some_bind]
    exact encRoundO_eq S (m + 1) _ h

theorem encryptWordsO_eq (S : List Nat) (r : Nat) (x : Block) (h : S.length = 2 * r + 4) :
    encryptWordsO S r x = some (encryptWords S r x) := by
  unfold encryptWordsO encryptWords
  rw [List.getElem?_eq_getElem (show 0 < S.length by omega),
    List.getElem?_eq_getElem (show 1 < S.length by omega),
    Option.some_bind, Option.some_bind,
    List.getD_eq_getElem S 0 (show 0 < S.length by omega),
    List.getD_eq_getElem S 0 (show 1 < S.length by omega),
    encRoundsO_eq S r _ (by omega), Option.some_bind,
    List.getElem?_eq_getElem (show 2 * r + 2 < S.length by omega),
    List.getElem?_eq_getElem (show 2 * r + 3 < S.length by omega),
    Option.some_bind, Option.some_bind,
    List.getD_eq_getElem S 0 (show 2 * r + 2 < S.length by omega),
    List.getD_eq_getElem S 0 (show 2 * r + 3 < S.length by omega)]

theorem decRoundO_eq (S : List Nat) (i : Nat) (x : Block) (h : 2 * i + 1 < S.length) :
    decRoundO S i x = some (decRound S i x) := by
  unfold decRoundO decRound
  rw [List.getElem?_eq_getElem (show 2 * i < S.length by omega),
    List.getElem?_eq_getElem h, Option.some_bind, Option.some_bind]
  rw [List.getD_eq_getElem S 0 (show 2 * i < S.length by omega), List.getD_eq_getElem S 0 h]

theorem decRoundsO_eq (S : List Nat) (n : Nat) (x : Block) (h : 2 * n + 1 < S.length) :
    decRoundsO S n x = some (decRounds S n x) := by
  induction n generalizing x with
  | zero => rfl
  | succ m ih =>
    show (decRoundO S (m + 1) x).bind _ = _
    rw [decRoundO_eq S (m + 1) x h, Option.some_bind]
    exact ih _ (by omega)

theorem decryptWordsO_eq (S : List Nat) (r : Nat) (x : Block) (h : S.length = 2 * r + 4) :
    decryptWordsO S r x = some (decryptWords S r x) := by
  unfold decryptWordsO decryptWords
  rw [List.getElem?_eq_getElem (show 2 * r + 2 < S.length by omega),
    List.getElem?_eq_getElem (show 2 * r + 3 < S.length by omega),
    Option.some_bind, Option.some_bind,
    List.getD_eq_getElem S 0 (show 2 * r + 2 < S.length by omega),
    List.getD_eq_getElem S 0 (show 2 * r + 3 < S.length by omega),
    decRoundsO_eq S r _ (by omega), Option.some_bind,
    List.getElem?_eq_getElem (show 0 < S.length by omega),
    List.getElem?_eq_getElem (show 1 < S.length by omega),
    Option.some_bind, Option.some_bind,
    List.getD_eq_getElem S 0 (show 0 < S.length by omega),
    List.getD_eq_getElem S 0 (show 1 < S.length by omega)]

theorem loadByteO_eq (key kw : List Nat) (i : Nat) (h : i / 4 < kw.length) :
    loadByteO key kw i = some (loadByte key kw i) := by
  unfold loadByteO loadByte setO
  rw [List.getElem?_eq_getElem h, Option.some_bind, if_pos h,
    List.getD_eq_getElem kw 0 h]

theorem loadKeyBytesO_eq (key : List Nat) (n : Nat) (kw : List Nat)
    (h : ∀ i, i < n → i / 4 < kw.length) :
    loadKeyBytesO key n kw = some (loadKeyBytes key n kw) := by
  induction n with
  | zero => rfl
  | succ m ih =>
    show (loadKeyBytesO key m kw).bind _ = _
    rw [ih (fun i hi => h i (Nat.lt_trans hi (Nat.lt_succ_self m))), Option.some_bind]
    exact loadByteO_eq key _ m
      (by rw [loadKeyBytes_length]; exact h m (Nat.lt_succ_self m))

theorem keyWordsO_eq (key : List Nat) (bits : Nat) (h0 : 0 < bits) :
    keyWordsO key bits = some (keyWords key bits) := by
  dsimp only [keyWordsO, keyWords]
  have hload : ∀ i, i < bits / 8 →
      i / 4 < (List.replicate (if bits % 32 = 0 then bits / 32 else bits / 32 + 1) (0 : Nat)).length := by
    intro i hi
    rw [List.length_replicate]
    by_cases h : bits % 32 = 0 <;> simp [h] <;> omega
  rw [loadKeyBytesO_eq key (bits / 8) _ hload, Option.some_bind]
  by_cases hmask : bits % 32 ≠ 0 ∧ bits % 8 > 0
  · have hlen : (loadKeyBytes key (bits / 8)
        (List.replicate (if bits % 32 = 0 then bits / 32 else bits / 32 + 1) (0 : Nat))).length =
        (if bits % 32 = 0 then bits / 32 else bits / 32 + 1) := by
      rw [loadKeyBytes_length, List.length_replicate]
    have hidx : (if bits % 32 = 0 then bits / 32 else bits / 32 + 1) - 1 <
        (if bits % 32 = 0 then bits / 32 else bits / 32 + 1) := by
      by_cases h : bits % 32 = 0 <;> simp [h] <;> omega
    rw [if_pos hmask, if_pos hmask, List.getElem?_eq_getElem (by rw [hlen]; exact hidx),
      Option.some_bind]
    unfold setO
    rw [if_pos (by rw [hlen]; exact hidx), List.getD_eq_getElem _ 0 (by rw [hlen]; exact hidx)]
  · rw [if_neg hmask, if_neg hmask]

theorem seedStepO_eq (S : List Nat) (i : Nat) (h : i < S.length) :
    seedStepO S i = some (seedStep S i) := by
  unfold seedStepO seedStep setO
  rw [List.getElem?_eq_getElem (show i - 1 < S.length by omega), Option.some_bind,
    if_pos h, List.getD_eq_getElem S 0 (show i - 1 < S.length by omega)]

theorem seedIterO_eq (S : List Nat) (n : Nat) (h : n < S.length) :
    seedIterO S n = some (seedIter S n) := by
  induction n with
  | zero => rfl
  | succ m ih =>
    show (seedIterO S m).bind _ = _
    rw [ih (by omega), Option.some_bind]
    exact seedStepO_eq _ (m + 1) (by rw [seedIter_length]; exact h)

theorem seedPhaseO_eq (old : List Nat) (ks : Nat) (hks : 0 < ks) :
    seedPhaseO old ks = some (seedPhase old ks) := by
  unfold seedPhaseO seedPhase setO
  rw [if_pos (by rw [resizeVec_length]; exact hks), Option.some_bind]
  exact seedIterO_eq _ (ks - 1) (by rw [List.length_set, resizeVec_length]; omega)

theorem mixStepO_eq (keySize c : Nat) (st : MixState)
    (hS : st.i < st.S.length) (hL : st.j < st.L.length) :
    mixStepO keySize c st = some (mixStep keySize c st) := by
  unfold mixStepO mixStep setO
  dsimp only
  rw [List.getElem?_eq_getElem hS, Option.some_bind, if_pos hS, Option.some_bind,
    List.getElem?_eq_getElem hL, Option.some_bind, if_pos hL, Option.some_bind,
    List.getD_eq_getElem _ 0 hS, List.getD_eq_getElem _ 0 hL]

theorem mixStep_inv (keySize c : Nat) (hks : 0 < keySize) (hc : 0 < c) (st : MixState)
    (h : MixInv keySize c st) : MixInv keySize c (mixStep keySize c st) := by
  obtain ⟨h1, h2, h3, h4⟩ := h
  exact ⟨by simp [mixStep, h1], by simp [mixStep, h2],
    Nat.mod_lt _ hks, Nat.mod_lt _ hc⟩

theorem mixIterO_eq (keySize c : Nat) (hks : 0 < keySize) (hc : 0 < c) (n : Nat)
    (st : MixState) (h : MixInv keySize c st) :
    mixIterO keySize c n st = some (mixIter keySize c n st) ∧
    MixInv keySize c (mixIter keySize c n st) := by
  induction n with
  | zero => exact ⟨rfl, h⟩
  | succ m ih =>
    obtain ⟨iheq, ihinv⟩ := ih
    constructor
    · show (mixIterO keySize c m st).bind _ = _
      rw [iheq, Option.some_bind]
      exact mixStepO_eq keySize c _ (by rw [ihinv.1]; exact ihinv.2.2.1)
        (by rw [ihinv.2.1]; exact ihinv.2.2.2)
    · exact mixStep_inv keySize c hks hc _ ihinv

theorem initO_eq (rounds : Nat) (old key : List Nat) (bits : Nat) (h0 : 0 < bits) :
    initO rounds old key bits = some (init rounds old key bits) := by
  have hcpos : 0 < (if bits % 32 = 0 then bits / 32 else bits / 32 + 1) := by
    by_cases h : bits % 32 = 0 <;> simp [h] <;> omega
  dsimp only [initO, init]
  rw [keyWordsO_eq key bits h0, Option.some_bind,
    seedPhaseO_eq old (2 * rounds + 4) (by omega), Option.some_bind]
  have hinv : MixInv (2 * rounds + 4) (if bits % 32 = 0 then bits / 32 else bits / 32 + 1)
      ⟨seedPhase old (2 * rounds + 4), keyWords key bits, 0, 0, 0, 0⟩ := by
    refine ⟨seedPhase_length old _, keyWords_length key bits, by dsimp only; omega, ?_⟩
    show 0 < _
    exact hcpos
  obtain ⟨heq, _⟩ := mixIterO_eq (2 * rounds + 4) _ (by omega) hcpos
    (3 * max (if bits % 32 = 0 then bits / 32 else bits / 32 + 1) (2 * rounds + 4)) _ hinv
  rw [heq, Option.some_bind]

/-- C10: on every valid run the source's container accesses are all in
bounds: the bounds-checked (`Option`-returning) embedding of the whole key
schedule returns `some` of the unchecked result, the resulting table has
length exactly `2·rounds + 4`, and on such a table the bounds-checked
embeddings of the encryption and decryption transforms also return `some`
of the unchecked results. -/
theorem claim10_accesses_in_bounds (rounds : Nat) (old key : List Nat) (bits : Nat)
    (x : Block) (hr : rounds ≤ 125) (h0 : 0 < bits) (h16 : bits < 65536) :
    initO rounds old key bits = some (init rounds old key bits) ∧
    (init rounds old key bits).length = 2 * rounds + 4 ∧
    encryptWordsO (init rounds old key bits) rounds x =
      some (encryptWords (init rounds old key bits) rounds x) ∧
    decryptWordsO (init rounds old key bits) rounds x =
      some (decryptWords (init rounds old key bits) rounds x) :=
  ⟨initO_eq rounds old key bits h0, init_length rounds old key bits,
    encryptWordsO_eq _ rounds x (init_length rounds old key bits),
    decryptWordsO_eq _ rounds x (init_length rounds old key bits)⟩

theorem claim10_accesses_in_bounds_witness :
    initO 0 [] [1] 8 = some (init 0 [] [1] 8) ∧
    (init 0 [] [1] 8).length = 2 * 0 + 4 ∧
    encryptWordsO (init 0 [] [1] 8) 0 ⟨0, 0, 0, 0⟩ =
      some (encryptWords (init 0 [] [1] 8) 0 ⟨0, 0, 0, 0⟩) ∧
    decryptWordsO (init 0 [] [1] 8) 0 ⟨0, 0, 0, 0⟩ =
      some (decryptWords (init 0 [] [1] 8) 0 ⟨0, 0, 0, 0⟩) :=
  claim10_accesses_in_bounds 0 [] [1] 8 ⟨0, 0, 0, 0⟩ (by decide) (by decide) (by decide)

end RC6

/-- Cross-check of the embedding against test case 2 of the repository's
own test suite (src/test/rc6_test.cpp): the non-zero 128-bit key vector. -/
theorem testVector_nonzero_128bit_key :
    RC6.encryptBytes
      (RC6.init 20 []
        [0x01, 0x23, 0x45, 0x67, 0x89, 0xab, 0xcd, 0xef,
         0x01, 0x12, 0x23, 0x34, 0x45, 0x56, 0x67, 0x78] 128) 20
      [0x02, 0x13, 0x24, 0x35, 0x46, 0x57, 0x68, 0x79,
       0x8a, 0x9b, 0xac, 0xbd, 0xce, 0xdf, 0xe0, 0xf1] =
      [0x52, 0x4e, 0x19, 0x2f, 0x47, 0x15, 0xc6, 0x23,
       0x1f, 0x51, 0xf6, 0x36, 0x7e, 0xa4, 0x3f, 0x18] := by decide

/-- Cross-check against test case 3 of the repository's test suite:
the all-zero 192-bit key vector. -/
theorem testVector_zero_192bit_key :
    RC6.encryptBytes (RC6.init 20 [] (List.replicate 24 0) 192) 20 (List.replicate 16 0) =
      [0x6c, 0xd6, 0x1b, 0xcb, 0x19, 0x0b, 0x30, 0x38,
       0x4e, 0x8a, 0x3f, 0x16, 0x86, 0x90, 0xae, 0x82] := by decide

/-- Cross-check against test case 5 of the repository's test suite:
the all-zero 256-bit key vector. -/
theorem testVector_zero_256bit_key :
    RC6.encryptBytes (RC6.init 20 [] (List.replicate 32 0) 256) 20 (List.replicate 16 0) =
      [0x8f, 0x5f, 0xbd, 0x05, 0x10, 0xd1, 0x5f, 0xa8,
       0x93, 0xfa, 0x3f, 0xda, 0x6e, 0x85, 0x7e, 0xc2] := by decide
